import Mathlib

/-!
Verification of the OCR pipeline orchestration layer
(`src/backend/pipelines/ocr_pipeline.py`).

The pipeline's pure parts (the text cleaner `remove_repetition`, the retry
loop `retry_gemini_async`, the per-file-type extractors and the batch
orchestrator's result aggregation) are embedded as executable Lean
functions.  The remote OCR call (`extract_text_from_image_content`) and the
third-party library calls (`convert_from_path`, `DocxDocument`,
`Image.open`) are external effects: they are modelled as an environment
record (`OcrEnv`) mapping their inputs to an `Except` outcome, which is
exactly what the surrounding `try`/`except` and `asyncio.gather(...,
return_exceptions=True)` code branches on.  The `asyncio` fan-out under the
semaphore is modelled as a small interleaving transition system
(`Step`/`Reachable`).
-/

namespace OcrPipe

/-! ### Text cleaner: `remove_repetition` (ocr_pipeline.py lines 297-342)

Python strings are embedded as Lean `String` (a list of characters);
`text.split('\n')`, `str.strip()`, and the two regexes
`^(.)\1{4,}$` and `(.)\1{m,}` are embedded character-for-character below.
The regex metacharacter `.` matches any character except a newline, hence
the explicit `'\n'` exclusions. -/

/-- The characters removed by Python's `str.strip()` with no argument,
i.e. those for which `str.isspace()` holds (CPython's
`Py_UNICODE_ISSPACE` table): tab through carriage return (0x09-0x0d),
the file/group/record/unit separators and space (0x1c-0x20), next line
(0x85), no-break space (0xa0), ogham space mark (0x1680), the Unicode
space range (0x2000-0x200a), line and paragraph separators
(0x2028, 0x2029), narrow no-break space (0x202f), medium mathematical
space (0x205f), and ideographic space (0x3000). -/
def isWs (c : Char) : Bool :=
  (0x09 ≤ c.toNat && c.toNat ≤ 0x0d) ||
  (0x1c ≤ c.toNat && c.toNat ≤ 0x20) ||
  c.toNat = 0x85 || c.toNat = 0xa0 || c.toNat = 0x1680 ||
  (0x2000 ≤ c.toNat && c.toNat ≤ 0x200a) ||
  c.toNat = 0x2028 || c.toNat = 0x2029 ||
  c.toNat = 0x202f || c.toNat = 0x205f || c.toNat = 0x3000

/-- Python `line.strip()`: drop whitespace from both ends. -/
def stripLine (l : List Char) : List Char :=
  ((l.dropWhile isWs).reverse.dropWhile isWs).reverse

/-- `re.match(r'^(.)\1{4,}$', line.strip())` (line 325): the stripped line
is one character (not `'\n'`, which `.` cannot match) repeated at least
5 times and nothing else. -/
def isSep (l : List Char) : Bool :=
  match stripLine l with
  | [] => false
  | c :: rest => decide (4 ≤ rest.length) && rest.all (· == c) && c != '\n'

/-- Helper for `collapseGo`: emit a maximal run of `n` copies of `c`,
shortened to `maxConsecutive` copies when the run is longer than that
(the replacement `r'\1' * max_consecutive` of line 329). Runs of `'\n'`
are never shortened because `.` does not match a newline. -/
def emitRun (m : Nat) (c : Char) (n : Nat) : List Char :=
  if m < n && c != '\n' then List.replicate m c else List.replicate n c

/-- Scan a line accumulating the current run (`c` repeated `n` times so
far) and emit each maximal run through `emitRun`. -/
def collapseGo (m : Nat) (c : Char) (n : Nat) : List Char → List Char
  | [] => emitRun m c n
  | d :: rest =>
    if d = c then collapseGo m c (n + 1) rest
    else emitRun m c n ++ collapseGo m d 1 rest

/-- `re.sub(r'(.)\1{m,}', r'\1' * m, line)` (line 329): every maximal run
of one character longer than `m` is replaced by exactly `m` copies. -/
def collapseRuns (m : Nat) : List Char → List Char
  | [] => []
  | c :: cs => collapseGo m c 1 cs

/-- The `for line in lines` loop of lines 323-340.  State: `prev` is
`prev_line` (`none` initially, Python `None`) and `cnt` is `line_count`.
Order of operations per line, exactly as in the source: (1) skip separator
lines; (2) collapse character runs; (3) if equal to `prev_line`, increment
`line_count` and skip once it exceeds `m`, otherwise reset the counter;
(4) append the (collapsed) line. -/
def cleanLoop (m : Nat) : List (List Char) → Option (List Char) → Nat → List (List Char)
  | [], _, _ => []
  | l :: ls, prev, cnt =>
    if isSep l then cleanLoop m ls prev cnt
    else if some (collapseRuns m l) = prev then
      if m < cnt + 1 then cleanLoop m ls prev (cnt + 1)
      else collapseRuns m l :: cleanLoop m ls prev (cnt + 1)
    else collapseRuns m l :: cleanLoop m ls (some (collapseRuns m l)) 1

/-- Python `text.split('\n')`: always returns at least one piece; pieces
contain no `'\n'`. -/
def splitLines : List Char → List (List Char)
  | [] => [[]]
  | c :: cs =>
    if c = '\n' then [] :: splitLines cs
    else
      match splitLines cs with
      | [] => [[c]]
      | l :: ls => (c :: l) :: ls

/-- Python `'\n'.join(cleaned_lines)`. -/
def joinLines : List (List Char) → List Char
  | [] => []
  | [l] => l
  | l :: l' :: ls => l ++ '\n' :: joinLines (l' :: ls)

/-- `remove_repetition(text, max_consecutive)` (lines 297-342; the source
default for `max_consecutive` is 20). -/
def remove_repetition (text : String) (m : Nat) : String :=
  ⟨joinLines (cleanLoop m (splitLines text.data) none 0)⟩

/-! ### Retry wrapper: `retry_gemini_async` (ocr_pipeline.py lines 257-294)

The wrapped operation is modelled as an oracle `op : Nat → Except ε α`
giving the outcome of its `i`-th invocation (0-based); `await
asyncio.sleep(delay)` is pure waiting and does not affect the result.  A
Python `async def` can finish in three ways that the caller observes:
return a value, raise, or fall off the end of the function body and
return `None` — the loop of lines 282-294 can do all three. -/

/-- The observable outcome of a call to `retry_gemini_async`. -/
inductive RetryOutcome (α ε : Type) where
  /-- `return await generate_fn(...)` succeeded (line 288). -/
  | success : α → RetryOutcome α ε
  /-- the bare `raise` on the final attempt (line 292). -/
  | raised : ε → RetryOutcome α ε
  /-- the `for` loop finished without returning or raising: Python
  returns `None`. -/
  | returnedNone : RetryOutcome α ε
deriving DecidableEq, Repr

/-- The `for attempt, delay in enumerate(delays[:retries])` loop body
(lines 282-294), together with the count of invocations of
`generate_fn`.  `sched` is the remaining `(attempt, delay)` pairs. -/
def retryGo (op : Nat → Except ε α) (retries : Nat) :
    List (Nat × Int) → RetryOutcome α ε × Nat
  | [] => (.returnedNone, 0)
  | (attempt, _delay) :: rest =>
    match op attempt with
    | .ok a => (.success a, 1)
    | .error e =>
      if attempt = retries - 1 then (.raised e, 1)
      else
        let r := retryGo op retries rest
        (r.1, r.2 + 1)

/-- `retry_gemini_async(generate_fn, retries=retries, delays=delays)`:
iterate over `enumerate(delays[:retries])`.  The source defaults are
`retries = 3`, `delays = [0, 60, 180]`. -/
def retry_gemini_async (op : Nat → Except ε α) (retries : Nat)
    (delays : List Int) : RetryOutcome α ε × Nat :=
  retryGo op retries (delays.take retries).enum

/-! ### Extractors and batch orchestrator (ocr_pipeline.py lines 49-254)

External effects are an environment `OcrEnv`:
`convert` is `pdf2image.convert_from_path(path, dpi=...)` returning page
images (opaque ids) or raising; `ocr` is the remote Gemini Vision call
`extract_text_from_image_content(img, page_num)` — the source stubs it
with a fixed success (lines 247-254), it is left abstract here so the
surrounding error handling (`asyncio.gather(..., return_exceptions=True)`
and the `try`/`except` blocks) can be verified for both outcomes; `docx`
is `DocxDocument(path)` yielding paragraph texts and table rows (each row
a list of cell texts) or raising; `openImage` is `PIL.Image.open` plus
RGB conversion yielding an image id or raising. -/

/-- `CONVERSION_DPI = 200` (line 44). -/
def CONVERSION_DPI : Nat := 200

/-- Outcomes of the external calls made by the pipeline. -/
structure OcrEnv where
  convert : String → Nat → Except String (List Nat)
  ocr : Nat → Nat → Except String String
  docx : String → Except String (List String × List (List String))
  openImage : String → Except String Nat

/-- The `for i, text in enumerate(page_texts)` combination loop of lines
144-151, started at page index `i`: an `Exception` entry contributes
`"\n[Page {i+1} extraction failed]\n"`, a text entry contributes
`"\n--- Page {i+1} ---\n{text}\n"`. -/
def combineAux : Nat → List (Except String String) → String
  | _, [] => ""
  | i, .error _ :: rest =>
    "\n[Page " ++ toString (i + 1) ++ " extraction failed]\n" ++ combineAux (i + 1) rest
  | i, .ok t :: rest =>
    "\n--- Page " ++ toString (i + 1) ++ " ---\n" ++ t ++ "\n" ++ combineAux (i + 1) rest

/-- The per-page task list of lines 136-139: page `i` (0-based) is sent to
the remote call with `page_num = i + 1`; `asyncio.gather` returns the
outcomes in task order. -/
def pdfPageResults (env : OcrEnv) (imgs : List Nat) : List (Except String String) :=
  imgs.enum.map fun p => env.ocr p.2 (p.1 + 1)

/-- `asyncio.gather` result assembly: tasks complete in an arbitrary order
(`events` is the completion sequence, each event pairing a task index with
its outcome) and each outcome is stored in the result slot of its own
index; the assembled list is read off in index order. -/
def gatherByIndex (n : Nat) (events : List (Nat × α)) : List (Option α) :=
  (List.range n).map fun i => (events.find? fun p => p.1 == i).map Prod.snd

/-- `extract_from_pdf(pdf_path)` (lines 111-156): convert the PDF at
`CONVERSION_DPI` (the only `convert_from_path` call in the function), OCR
every page concurrently, combine in page order; any raise inside the
`try` yields `""`. -/
def extract_from_pdf (env : OcrEnv) (path : String) : String :=
  match env.convert path CONVERSION_DPI with
  | .error _ => ""
  | .ok imgs => combineAux 0 (pdfPageResults env imgs)

/-- `extract_from_docx(docx_path)` (lines 159-186): paragraphs with
non-empty `strip()`, then table rows joined by tabs, all joined by
newlines; a raise yields `""`. -/
def extract_from_docx (env : OcrEnv) (path : String) : String :=
  match env.docx path with
  | .error _ => ""
  | .ok (paras, rows) =>
    let paragraphs := paras.filter fun p => ¬(stripLine p.data).isEmpty
    let tablesText := rows.map fun r => String.intercalate "\t" r
    String.intercalate "\n" (paragraphs ++ tablesText)

/-- `extract_from_image(image_path)` (lines 189-210): open and normalize
the image, then one remote call with `page_num = 1`; any raise (from
opening or from the call) is caught and yields `""`. -/
def extract_from_image (env : OcrEnv) (path : String) : String :=
  match env.openImage path with
  | .error _ => ""
  | .ok img =>
    match env.ocr img 1 with
    | .ok t => t
    | .error _ => ""

/-- `PurePath.name`: the path's final component (after the last `'/'`). -/
def lastComponent (s : List Char) : List Char :=
  s.foldl (fun acc c => if c = '/' then [] else acc ++ [c]) []

/-- CPython `PurePath.suffix`: the final component's extension from its
last dot, empty when the dot is the first or last character. -/
def pathSuffix (p : String) : String :=
  let name := lastComponent p.data
  match name.reverse.findIdx? (· = '.') with
  | none => ""
  | some r =>
    let i := name.length - 1 - r
    if 0 < i ∧ i < name.length - 1 then ⟨name.drop i⟩ else ""

/-- `_extract_single(path)` (lines 75-94): dispatch on
`path.suffix.lower()`; unsupported suffixes yield `""`; returns
`(str(path), text)`.  The three extractors catch every exception
internally, so `_extract_single` never raises. -/
def extract_single (env : OcrEnv) (path : String) : String × String :=
  let suffix := ⟨(pathSuffix path).data.map Char.toLower⟩
  let text :=
    if suffix = ".pdf" then extract_from_pdf env path
    else if suffix = ".docx" ∨ suffix = ".doc" then extract_from_docx env path
    else if suffix = ".png" ∨ suffix = ".jpg" ∨ suffix = ".jpeg" then extract_from_image env path
    else ""
  (path, text)

/-- Python `dict` insertion `output[path] = text`: overwrite the existing
entry for the key, else append. -/
def dictInsert (d : List (String × String)) (kv : String × String) :
    List (String × String) :=
  if d.any fun p => p.1 = kv.1 then
    d.map fun p => if p.1 = kv.1 then kv else p
  else d ++ [kv]

/-- `extract_text_from_documents(file_paths, max_concurrency)` result
value (lines 49-108): one `_extract_single` task per path, gathered with
`return_exceptions=True`, then inserted into `output`.  Since
`_extract_single` is total (every extractor catches its exceptions), the
`isinstance(result, Exception)` filter of lines 101-103 never fires and
every task contributes its `(str(path), text)` pair in order. -/
def extract_text_from_documents (env : OcrEnv) (paths : List String) :
    List (String × String) :=
  (paths.map (extract_single env)).foldl dictInsert []

/-! ### Concurrency model of the batch fan-out (lines 73-97 and 136-141)

`extract_text_from_documents` creates one task per document; each task
does `async with sem:` (acquire one of `max_concurrency` semaphore slots,
release on exit) and, while holding its single slot, issues its remote
OCR calls.  A PDF document issues one concurrent call per page through
`asyncio.gather` *inside* the `async with` block — the page tasks
(line 136-139) never touch `sem` themselves.  A `.png`/`.jpg` document
issues exactly one remote call; a `.docx` or unsupported document issues
none.  The model is a cooperative interleaving transition system: each
document is given its number of remote calls (`pages`), and any
interleaving of acquire / call-start / call-end / release events is a
reachable schedule. -/

/-- State of one in-flight remote OCR call task. -/
inductive PageSt where
  | idle
  | calling
  | done
deriving DecidableEq, Repr

/-- State of one document task: waiting to enter `async with sem:`,
holding a semaphore slot (with the states of its remote-call subtasks),
or finished (slot released). -/
inductive DocSt where
  | waiting
  | holding (ps : List PageSt)
  | finished
deriving DecidableEq, Repr

/-- A batch run: the semaphore limit `K` (`max_concurrency`, source
default 8) and, per document, how many remote OCR calls it makes while
holding its slot (PDF: page count; image: 1; docx/unsupported: 0). -/
structure BatchConfig where
  K : Nat
  pages : List Nat
deriving DecidableEq, Repr

/-- Global state: per-document task states plus the semaphore's free-slot
counter. -/
structure GState where
  docs : List DocSt
  sem : Nat
deriving DecidableEq, Repr

/-- 1 if the remote call is in flight. -/
def pageActive : PageSt → Nat
  | .calling => 1
  | _ => 0

/-- Number of remote calls a document task currently has in flight. -/
def DocSt.active : DocSt → Nat
  | .holding ps => (ps.map pageActive).sum
  | _ => 0

/-- 1 if the document task currently holds a semaphore slot. -/
def DocSt.holdNum : DocSt → Nat
  | .holding _ => 1
  | _ => 0

/-- Remote OCR calls in flight across the whole batch. -/
def GState.activeCalls (s : GState) : Nat :=
  (s.docs.map DocSt.active).sum

/-- Documents currently inside `async with sem:`. -/
def GState.holdingCount (s : GState) : Nat :=
  (s.docs.map DocSt.holdNum).sum

/-- All document tasks created, none scheduled yet; the semaphore has all
`K` slots free. -/
def initState (cfg : BatchConfig) : GState :=
  ⟨cfg.pages.map fun _ => .waiting, cfg.K⟩

/-- One scheduler step.  `acquire` is `async with sem:` entry (only when a
slot is free) — it spawns the document's remote-call subtasks, which is
where the per-page `gather` of `extract_from_pdf` runs without touching
the semaphore; `pageStart`/`pageEnd` bracket one remote call;
`release` is `async with sem:` exit once the document's work is done. -/
inductive Step (cfg : BatchConfig) : GState → GState → Prop where
  | acquire (s : GState) (i n : Nat) :
      s.docs.get? i = some .waiting →
      s.sem = n + 1 →
      Step cfg s ⟨s.docs.set i (.holding (List.replicate ((cfg.pages.get? i).getD 0) .idle)), n⟩
  | pageStart (s : GState) (i j : Nat) (ps : List PageSt) :
      s.docs.get? i = some (.holding ps) →
      ps.get? j = some .idle →
      Step cfg s ⟨s.docs.set i (.holding (ps.set j .calling)), s.sem⟩
  | pageEnd (s : GState) (i j : Nat) (ps : List PageSt) :
      s.docs.get? i = some (.holding ps) →
      ps.get? j = some .calling →
      Step cfg s ⟨s.docs.set i (.holding (ps.set j .done)), s.sem⟩
  | release (s : GState) (i : Nat) (ps : List PageSt) :
      s.docs.get? i = some (.holding ps) →
      (∀ p ∈ ps, p = .done) →
      Step cfg s ⟨s.docs.set i .finished, s.sem + 1⟩

/-- States reachable under some interleaving of the batch's tasks. -/
inductive Reachable (cfg : BatchConfig) : GState → Prop where
  | init : Reachable cfg (initState cfg)
  | step {s t : GState} : Reachable cfg s → Step cfg s t → Reachable cfg t

/-- Largest per-document remote-call count in the batch. -/
def maxPages (cfg : BatchConfig) : Nat :=
  cfg.pages.foldr max 0

/-- The inductive invariant of the batch system: free slots plus held
slots equal `K`, and every holding document's subtask list has at most
`maxPages` entries. -/
def Inv (cfg : BatchConfig) (s : GState) : Prop :=
  s.sem + s.holdingCount = cfg.K ∧
  ∀ ps, DocSt.holding ps ∈ s.docs → ps.length ≤ maxPages cfg

/-! ### Proof scaffolding for the text cleaner: maximal-run decomposition

`collapseRuns` is analysed through the maximal-run view of a line: a line
is a sequence of maximal runs (character, positive count) with adjacent
runs carrying distinct characters, and the regex substitution shortens
each run independently. -/

/-- Accumulating maximal-run decomposition: the current run is `c`
repeated `n` times so far. -/
def runsGo (c : Char) (n : Nat) : List Char → List (Char × Nat)
  | [] => [(c, n)]
  | d :: rest =>
    if d = c then runsGo c (n + 1) rest else (c, n) :: runsGo d 1 rest

/-- Maximal-run decomposition of a line. -/
def runs : List Char → List (Char × Nat)
  | [] => []
  | c :: cs => runsGo c 1 cs

/-- Rebuild a line from a run list. -/
def unruns (rs : List (Char × Nat)) : List Char :=
  (rs.map fun p => List.replicate p.2 p.1).flatten

/-- The per-run effect of the substitution
`re.sub(r'(.)\1{m,}', r'\1' * m, line)`. -/
def collapseRun (m : Nat) (p : Char × Nat) : Char × Nat :=
  (p.1, if m < p.2 && p.1 != '\n' then m else p.2)

/-- Well-formed run lists: positive counts and adjacent runs with
distinct characters (what `runs` produces). -/
def GoodRuns (rs : List (Char × Nat)) : Prop :=
  (∀ p ∈ rs, 1 ≤ p.2) ∧ rs.Chain' fun p q => p.1 ≠ q.1

/-- Whether a run consists of whitespace. -/
def wsRun (p : Char × Nat) : Bool := isWs p.1

/-- `stripLine` acting on the run view: drop whitespace runs from both
ends. -/
def stripRuns (rs : List (Char × Nat)) : List (Char × Nat) :=
  ((rs.dropWhile wsRun).reverse.dropWhile wsRun).reverse

/-- Environment exhibiting the C1 divergence: `scan.pdf` cannot be
rasterized (every `convert_from_path` call raises) while `empty.docx`
parses fine but holds no paragraphs and no tables. -/
def c1Env : OcrEnv :=
  ⟨fun _ _ => .error "pdf conversion failed", fun _ _ => .ok "text",
   fun _ => .ok ([], []), fun _ => .error "cannot open"⟩

/-- Environment for the C8 witness: rasterization raises at 200 DPI but
would succeed at 100 DPI with one page. -/
def c8Env : OcrEnv :=
  ⟨fun _ dpi => if dpi = 100 then .ok [7] else .error "out of memory",
   fun _ _ => .ok "page text", fun _ => .error "not a docx",
   fun _ => .error "not an image"⟩

/-- Environment for the C7 witness: a 3-page PDF whose middle page's
remote OCR call raises. -/
def c7Env : OcrEnv :=
  ⟨fun _ _ => .ok [10, 11, 12],
   fun img _ => if img = 11 then .error "rate limited" else .ok ("text " ++ toString img),
   fun _ => .error "not a docx", fun _ => .error "not an image"⟩

end OcrPipe

namespace OcrPipe

/-! ### Theorems: retry policy (C3, C4) -/

/-- Claim C3: with the default schedule (`retries = 3`,
`delays = [0, 60, 180]`), an operation failing on its first two
invocations and succeeding on the third makes `retry_gemini_async` return
the success result after exactly 3 invocations; an operation failing on
every invocation makes it raise the last error after exactly `retries = 3`
invocations. -/
theorem c3_retry_default_schedule
    (op : Nat → Except String String) (e0 e1 : String) (a : String)
    (f : Nat → String) :
    (op 0 = .error e0 → op 1 = .error e1 → op 2 = .ok a →
      retry_gemini_async op 3 [0, 60, 180] = (.success a, 3)) ∧
    ((∀ i, op i = .error (f i)) →
      retry_gemini_async op 3 [0, 60, 180] = (.raised (f 2), 3)) := by
  constructor
  · intro h0 h1 h2
    simp [retry_gemini_async, List.take, List.enum, List.enumFrom, retryGo, h0, h1, h2]
  · intro hf
    simp [retry_gemini_async, List.take, List.enum, List.enumFrom, retryGo,
      hf 0, hf 1, hf 2]

/-- Witness for C3 at a concrete operation. -/
theorem c3_witness :
    retry_gemini_async
        (fun i => if i < 2 then .error (toString i) else .ok "yes") 3 [0, 60, 180]
      = (.success "yes", 3) ∧
    retry_gemini_async (α := String) (fun i => .error (toString i)) 3 [0, 60, 180]
      = (.raised "2", 3) := by
  refine ⟨(c3_retry_default_schedule _ "0" "1" "yes" toString).1 rfl rfl rfl, ?_⟩
  exact (c3_retry_default_schedule (fun i => .error (toString i)) "" "" "" toString).2
    fun i => rfl

/-- Claim C4 (code bug): with `retries = 4` exceeding the schedule length
3 and an always-failing operation, the loop `for attempt, delay in
enumerate(delays[:retries])` runs out after `len(delays) = 3` attempts —
capping the attempt count as claimed — but the guard
`attempt == retries - 1` never fires, so the function neither returns a
result nor raises: Python falls off the loop and returns `None`,
swallowing the last error, contradicting the claim, the spec and the
function's own docstring ("Raises exception on final failure"). -/
theorem c4_retries_beyond_schedule_swallows_error
    (op : Nat → Except String String) (f : Nat → String)
    (hf : ∀ i, op i = .error (f i)) :
    retry_gemini_async op 4 [0, 60, 180] = (.returnedNone, 3) := by
  simp [retry_gemini_async, List.take, List.enum, List.enumFrom, retryGo,
    hf 0, hf 1, hf 2]

/-- Witness for C4 at a concrete always-failing operation. -/
theorem c4_witness :
    retry_gemini_async (α := String) (fun _ => .error "boom") 4 [0, 60, 180]
      = (.returnedNone, 3) :=
  c4_retries_beyond_schedule_swallows_error (fun _ => .error "boom")
    (fun _ => "boom") (fun _ => rfl)

/-! ### Theorems: batch output and PDF extraction (C1, C8) -/

/-- Claim C1 (code bug): a document whose extraction failed outright (a
PDF that cannot be rasterized) and a document that is genuinely empty (a
DOCX with no paragraphs and no tables) both map to `""` in the output of
`extract_text_from_documents` — the failed document's entry carries no
failure indicator distinguishable from an empty document, contrary to the
claim (the spec itself mandates an explicit failure marker as the
corrected contract). -/
theorem c1_failed_document_indistinguishable_from_empty :
    extract_text_from_documents c1Env ["scan.pdf", "empty.docx"]
        = [("scan.pdf", ""), ("empty.docx", "")] ∧
    (extract_text_from_documents c1Env ["scan.pdf", "empty.docx"]).lookup "scan.pdf"
        = (extract_text_from_documents c1Env ["scan.pdf", "empty.docx"]).lookup "empty.docx" := by
  constructor <;> decide

/-- Claim C8 (code bug): `extract_from_pdf` calls `convert_from_path`
exactly once, at `CONVERSION_DPI = 200`; when that call raises it returns
`""` immediately, even in an environment where conversion at 100 DPI
would succeed — no 100 DPI fallback exists in the code, contradicting the
claim, the spec's `rasterDPI` fallback and the function's own docstring
("Fallback to 100 DPI if 200 fails"). -/
theorem c8_no_dpi_fallback
    (env : OcrEnv) (path : String) (e : String) (pages : List Nat)
    (h200 : env.convert path CONVERSION_DPI = .error e)
    (h100 : env.convert path 100 = .ok pages) :
    extract_from_pdf env path = "" := by
  simp [extract_from_pdf, h200]

/-- Witness for C8: a concrete environment failing at 200 DPI and
succeeding at 100 DPI. -/
theorem c8_witness : extract_from_pdf c8Env "scan.pdf" = "" :=
  c8_no_dpi_fallback c8Env "scan.pdf" "out of memory" [7] rfl rfl

/-! ### Theorems: text cleaner concrete behaviour (C5) -/

/-- Claim C5 is false on the code: `"a" * 50` is a single line whose
stripped form is one character repeated ≥ 5 times, so the separator-line
rule (line 325) removes the whole line *before* the run-collapsing rule
(line 329) can act; the result is `""`, not 20 `a`s. -/
theorem c5_counterexample :
    remove_repetition ⟨List.replicate 50 'a'⟩ 20 ≠ ⟨List.replicate 20 'a'⟩ := by
  decide

/-- Claim C5 amended: applying the text cleaner to `"a" * 50` with
`maxConsecutive = 20` yields the empty string (the line is removed
entirely as a separator line). -/
theorem c5_amended_separator_removal :
    remove_repetition ⟨List.replicate 50 'a'⟩ 20 = "" := by
  decide

/-! ### Theorems: PDF page isolation and ordering (C7) -/

/-- `find?` returns the unique entry with a given key when the keys are
pairwise distinct. -/
theorem find_eq_of_pairwise_keys {α : Type} :
    ∀ (l : List (Nat × α)) (i : Nat) (a : α),
      l.Pairwise (fun p q => p.1 ≠ q.1) → (i, a) ∈ l →
      l.find? (fun p => p.1 == i) = some (i, a) := by
  intro l
  induction l with
  | nil => intro i a _ hm; cases hm
  | cons hd tl ih =>
    intro i a hp hm
    rcases List.pairwise_cons.mp hp with ⟨hhd, htl⟩
    rcases List.mem_cons.mp hm with heq | hmem
    · subst heq
      simp [List.find?]
    · have hne : hd.1 ≠ i := by
        intro h
        exact hhd _ hmem (by simp [h])
      rw [List.find?_cons_of_neg _ (by simpa using hne)]
      exact ih i a htl hmem

/-- `combined_text` concatenation splits at any partition of the page
outcome list (induction form of the loop of lines 144-151). -/
theorem combineAux_append :
    ∀ (xs : List (Except String String)) (k : Nat) (ys : List (Except String String)),
      combineAux k (xs ++ ys) = combineAux k xs ++ combineAux (k + xs.length) ys := by
  intro xs
  induction xs with
  | nil => intro k ys; simp [combineAux]
  | cons x t ih =>
    intro k ys
    have harith : k + 1 + t.length = k + (t.length + 1) := by omega
    cases x with
    | error e =>
      simp only [List.cons_append, combineAux, List.length_cons, List.append_eq,
        ih (k + 1) ys]
      rw [harith]
      simp [String.append_assoc]
    | ok s =>
      simp only [List.cons_append, combineAux, List.length_cons, List.append_eq,
        ih (k + 1) ys]
      rw [harith]
      simp [String.append_assoc]

/-- Claim C7: (a) when page `j` (0-based) of a PDF fails, the combined
text is exactly the combination of the earlier pages, then the inline
marker `"[Page j+1 extraction failed]"`, then the combination of the
later pages — the failure neither disturbs the other pages nor moves from
its page-index position; (b) `asyncio.gather` assembles results by task
index, so any completion order (`events`, a permutation of the indexed
outcomes) yields the same page list. -/
theorem c7_pdf_page_isolation
    (env : OcrEnv) (path : String) (imgs : List Nat) (j : Nat) (e : String)
    (rs : List (Except String String)) (events : List (Nat × Except String String))
    (hconv : env.convert path CONVERSION_DPI = .ok imgs)
    (herr : (pdfPageResults env imgs).get? j = some (.error e))
    (hperm : events.Perm rs.enum) :
    extract_from_pdf env path
      = combineAux 0 ((pdfPageResults env imgs).take j)
        ++ ("\n[Page " ++ toString (j + 1) ++ " extraction failed]\n"
        ++ combineAux (j + 1) ((pdfPageResults env imgs).drop (j + 1))) ∧
    gatherByIndex rs.length events = rs.map some := by
  constructor
  · have hlt : j < (pdfPageResults env imgs).length := by
      by_contra hge
      rw [List.get?_eq_none.mpr (Nat.le_of_not_lt hge)] at herr
      cases herr
    have hsplit : pdfPageResults env imgs
        = (pdfPageResults env imgs).take j
          ++ Except.error e :: (pdfPageResults env imgs).drop (j + 1) := by
      conv_lhs => rw [← List.take_append_drop j (pdfPageResults env imgs)]
      congr 1
      rw [List.drop_eq_get_cons hlt]
      congr 1
      have := List.get?_eq_get hlt
      rw [herr] at this
      exact (Option.some_inj.mp this).symm
    have hlen : ((pdfPageResults env imgs).take j).length = j := by
      rw [List.length_take]
      exact Nat.min_eq_left (Nat.le_of_lt hlt)
    simp only [extract_from_pdf, hconv]
    conv_lhs => rw [hsplit]
    rw [combineAux_append, hlen]
    simp [combineAux, String.append_assoc]
  · apply List.ext_get?
    intro i
    by_cases hi : i < rs.length
    · have hkeys : events.Pairwise (fun p q => p.1 ≠ q.1) := by
        have hnd : rs.enum.Pairwise (fun p q => p.1 ≠ q.1) := by
          have h1 : (rs.enum.map Prod.fst).Nodup := by
            rw [List.enum_map_fst]
            exact List.nodup_range _
          rw [List.Nodup, List.pairwise_map] at h1
          exact h1
        exact (hperm.pairwise_iff fun h => h.symm).mpr hnd
      have hget : rs.get? i = some (rs.get ⟨i, hi⟩) := List.get?_eq_get hi
      have hmem : (i, rs.get ⟨i, hi⟩) ∈ events := by
        refine hperm.mem_iff.mpr ?_
        rw [List.mem_enum_iff_get?]
        exact hget
      rw [List.get?_map, hget]
      simp only [gatherByIndex, List.get?_map]
      rw [List.get?_range hi]
      simp [find_eq_of_pairwise_keys events i _ hkeys hmem]
    · have h1 : (gatherByIndex rs.length events).get? i = none := by
        rw [List.get?_eq_none]
        simp [gatherByIndex, Nat.le_of_not_lt hi]
      have h2 : (rs.map some).get? i = none := by
        rw [List.get?_eq_none]
        simp [Nat.le_of_not_lt hi]
      rw [h1, h2]

/-! ### Theorems: admission gate (C2) -/

/-- Replacing one list element changes a mapped sum by the difference of
the two images. -/
theorem sum_map_set {α : Type} (f : α → Nat) :
    ∀ (l : List α) (i : Nat) (a b : α), l.get? i = some b →
      ((l.set i a).map f).sum + f b = (l.map f).sum + f a := by
  intro l
  induction l with
  | nil => intro i a b h; cases h
  | cons hd tl ih =>
    intro i a b h
    cases i with
    | zero =>
      cases h
      simp [List.set]
      omega
    | succ i =>
      have := ih i a b h
      simp only [List.set, List.map_cons, List.sum_cons]
      omega

/-- Every element is at most the `foldr max` of its list. -/
theorem le_foldr_max : ∀ (l : List Nat) (a : Nat), a ∈ l → a ≤ l.foldr max 0 := by
  intro l
  induction l with
  | nil => intro a h; cases h
  | cons hd tl ih =>
    intro a h
    rcases List.mem_cons.mp h with rfl | h
    · exact Nat.le_max_left _ _
    · exact Nat.le_trans (ih a h) (Nat.le_max_right _ _)

/-- The page count handed to an acquiring document is at most
`maxPages`. -/
theorem pages_getD_le_maxPages (cfg : BatchConfig) (i : Nat) :
    (cfg.pages.get? i).getD 0 ≤ maxPages cfg := by
  cases h : cfg.pages.get? i with
  | none => exact Nat.zero_le _
  | some v => exact le_foldr_max _ _ (List.get?_mem h)

/-- The invariant holds initially. -/
theorem inv_init (cfg : BatchConfig) : Inv cfg (initState cfg) := by
  constructor
  · have hz : ((cfg.pages.map fun _ => DocSt.waiting).map DocSt.holdNum).sum = 0 := by
      rw [List.map_map]
      exact List.sum_eq_zero fun x hx => by
        rcases List.mem_map.mp hx with ⟨y, _, rfl⟩
        rfl
    simp only [initState, GState.holdingCount]
    omega
  · intro ps hps
    rcases List.mem_map.mp hps with ⟨y, _, h⟩
    cases h

/-- The invariant is preserved by every scheduler step. -/
theorem inv_step {cfg : BatchConfig} {s t : GState} (hst : Step cfg s t)
    (hInv : Inv cfg s) : Inv cfg t := by
  obtain ⟨hsem, hlen⟩ := hInv
  cases hst with
  | acquire i n hget hsemeq =>
    constructor
    · have := sum_map_set DocSt.holdNum s.docs i
        (DocSt.holding (List.replicate ((cfg.pages.get? i).getD 0) PageSt.idle))
        DocSt.waiting hget
      simp only [GState.holdingCount, DocSt.holdNum] at this hsem ⊢
      omega
    · intro ps hps
      rcases List.mem_or_eq_of_mem_set hps with h | h
      · exact hlen ps h
      · cases h
        rw [List.length_replicate]
        exact pages_getD_le_maxPages cfg i
  | pageStart i j ps hget hpj =>
    constructor
    · have := sum_map_set DocSt.holdNum s.docs i
        (DocSt.holding (ps.set j PageSt.calling)) (DocSt.holding ps) hget
      simp only [GState.holdingCount, DocSt.holdNum] at this hsem ⊢
      omega
    · intro qs hqs
      rcases List.mem_or_eq_of_mem_set hqs with h | h
      · exact hlen qs h
      · cases h
        rw [List.length_set]
        exact hlen ps (List.get?_mem hget)
  | pageEnd i j ps hget hpj =>
    constructor
    · have := sum_map_set DocSt.holdNum s.docs i
        (DocSt.holding (ps.set j PageSt.done)) (DocSt.holding ps) hget
      simp only [GState.holdingCount, DocSt.holdNum] at this hsem ⊢
      omega
    · intro qs hqs
      rcases List.mem_or_eq_of_mem_set hqs with h | h
      · exact hlen qs h
      · cases h
        rw [List.length_set]
        exact hlen ps (List.get?_mem hget)
  | release i ps hget hdone =>
    constructor
    · have := sum_map_set DocSt.holdNum s.docs i DocSt.finished
        (DocSt.holding ps) hget
      simp only [GState.holdingCount, DocSt.holdNum] at this hsem ⊢
      omega
    · intro qs hqs
      rcases List.mem_or_eq_of_mem_set hqs with h | h
      · exact hlen qs h
      · cases h

/-- Every reachable state satisfies the invariant. -/
theorem inv_reachable {cfg : BatchConfig} {s : GState} (h : Reachable cfg s) :
    Inv cfg s := by
  induction h with
  | init => exact inv_init cfg
  | step _ hst ih => exact inv_step hst ih

/-- A list of `1`s sums to the list's length. -/
theorem sum_map_one {α : Type} (l : List α) : (l.map fun _ => (1 : Nat)).sum = l.length := by
  induction l with
  | nil => rfl
  | cons hd tl ih => simp [ih, Nat.add_comm]

/-- Claim C2 is false on the code: the per-page OCR calls of a PDF run
under the parent document's single semaphore slot without acquiring the
gate themselves (`extract_from_pdf` lines 136-141 never touch `sem`), so
with `K = 1` and a single 2-page PDF a schedule is reachable in which 2
remote calls are active at once — more than `K`. -/
theorem c2_counterexample :
    ¬ ∀ (cfg : BatchConfig) (s : GState), Reachable cfg s →
        s.activeCalls ≤ cfg.K := by
  intro hclaim
  have h0 : Reachable ⟨1, [2]⟩ ⟨[DocSt.waiting], 1⟩ := Reachable.init
  have h1 : Reachable ⟨1, [2]⟩ ⟨[DocSt.holding [PageSt.idle, PageSt.idle]], 0⟩ :=
    Reachable.step h0 (by exact Step.acquire _ 0 0 rfl rfl)
  have h2 : Reachable ⟨1, [2]⟩ ⟨[DocSt.holding [PageSt.calling, PageSt.idle]], 0⟩ :=
    Reachable.step h1 (by exact Step.pageStart _ 0 0 [PageSt.idle, PageSt.idle] rfl rfl)
  have h3 : Reachable ⟨1, [2]⟩ ⟨[DocSt.holding [PageSt.calling, PageSt.calling]], 0⟩ :=
    Reachable.step h2 (by exact Step.pageStart _ 0 1 [PageSt.calling, PageSt.idle] rfl rfl)
  have := hclaim _ _ h3
  simp [GState.activeCalls, DocSt.active, pageActive] at this

/-- Claim C2 amended: in every reachable state at most `K` documents hold
the admission gate simultaneously, and the number of simultaneously
active remote OCR calls is bounded only by `K` times the largest
per-document page count (per-page PDF calls are not individually gated,
so the remote-call count can exceed `K`). -/
theorem c2_gate_bounds_documents_not_calls
    (cfg : BatchConfig) (s : GState) (h : Reachable cfg s) :
    s.holdingCount ≤ cfg.K ∧ s.activeCalls ≤ cfg.K * maxPages cfg := by
  obtain ⟨hsem, hlen⟩ := inv_reachable h
  have hhc : s.holdingCount ≤ cfg.K := by omega
  refine ⟨hhc, ?_⟩
  have hpt : ∀ d ∈ s.docs, DocSt.active d ≤ maxPages cfg * DocSt.holdNum d := by
    intro d hd
    cases d with
    | waiting => exact Nat.zero_le _
    | finished => exact Nat.zero_le _
    | holding ps =>
      have h1 : (ps.map pageActive).sum ≤ ps.length := by
        have := List.sum_le_sum (l := ps) (f := pageActive) (g := fun _ => 1)
          (fun p _ => by cases p <;> simp [pageActive])
        rw [sum_map_one] at this
        exact this
      have h2 : ps.length ≤ maxPages cfg := hlen ps hd
      simpa [DocSt.active, DocSt.holdNum] using Nat.le_trans h1 h2
  have hsum : s.activeCalls ≤ (s.docs.map fun d => maxPages cfg * DocSt.holdNum d).sum :=
    List.sum_le_sum hpt
  rw [List.sum_map_mul_left] at hsum
  calc s.activeCalls ≤ maxPages cfg * s.holdingCount := hsum
    _ ≤ maxPages cfg * cfg.K := Nat.mul_le_mul_left _ hhc
    _ = cfg.K * maxPages cfg := Nat.mul_comm _ _

/-- Witness for C2 at the initial state of a concrete batch. -/
theorem c2_witness :
    (initState ⟨1, [2]⟩).holdingCount ≤ 1 ∧
    (initState ⟨1, [2]⟩).activeCalls ≤ 1 * maxPages ⟨1, [2]⟩ :=
  c2_gate_bounds_documents_not_calls ⟨1, [2]⟩ (initState ⟨1, [2]⟩) Reachable.init

/-- Witness for C7: a concrete 3-page PDF whose middle page fails. -/
theorem c7_witness :
    extract_from_pdf c7Env "doc.pdf"
      = combineAux 0 ((pdfPageResults c7Env [10, 11, 12]).take 1)
        ++ ("\n[Page " ++ toString 2 ++ " extraction failed]\n"
        ++ combineAux 2 ((pdfPageResults c7Env [10, 11, 12]).drop 2)) ∧
    gatherByIndex [Except.ok "a", Except.error "b"].length
        [(1, Except.error "b"), (0, Except.ok "a")]
      = [Except.ok "a", Except.error "b"].map some :=
  ⟨(c7_pdf_page_isolation c7Env "doc.pdf" [10, 11, 12] 1 "rate limited"
      [] [] rfl rfl (List.Perm.refl _)).1,
   (c7_pdf_page_isolation c7Env "doc.pdf" [10, 11, 12] 1 "rate limited"
      [Except.ok "a", Except.error "b"] [(1, Except.error "b"), (0, Except.ok "a")]
      rfl rfl (by exact List.Perm.swap _ _ _)).2⟩

/-! ### Run-decomposition lemmas for the text cleaner -/

/-- `collapseGo` is `emitRun` applied to each maximal run. -/
theorem collapseGo_eq_unruns (m : Nat) :
    ∀ (l : List Char) (c : Char) (n : Nat),
      collapseGo m c n l = unruns ((runsGo c n l).map (collapseRun m)) := by
  intro l
  induction l with
  | nil =>
    intro c n
    simp only [collapseGo, runsGo, List.map_cons, List.map_nil, unruns,
      List.flatten, collapseRun, emitRun]
    by_cases h : m < n && c != '\n' <;> simp [h]
  | cons d rest ih =>
    intro c n
    simp only [collapseGo, runsGo]
    by_cases h : d = c
    · simp only [h, if_pos rfl]
      exact ih c (n + 1)
    · simp only [if_neg h, List.map_cons, unruns, List.flatten, emitRun, collapseRun]
      rw [← unruns, ← ih d 1]
      by_cases h2 : m < n && c != '\n' <;> simp [h2]

/-- `collapseRuns` through the run view. -/
theorem collapseRuns_eq_unruns (m : Nat) (l : List Char) :
    collapseRuns m l = unruns ((runs l).map (collapseRun m)) := by
  cases l with
  | nil => rfl
  | cons c cs => exact collapseGo_eq_unruns m cs c 1

/-- `runsGo` always opens with the accumulating run's character. -/
theorem runsGo_first (c : Char) :
    ∀ (l : List Char) (n : Nat), ∃ k rest, runsGo c n l = (c, k) :: rest ∧ n ≤ k := by
  intro l
  induction l with
  | nil => intro n; exact ⟨n, [], rfl, Nat.le_refl n⟩
  | cons d t ih =>
    intro n
    by_cases h : d = c
    · subst h
      rcases ih (n + 1) with ⟨k, rest, hr, hk⟩
      exact ⟨k, rest, by simp [runsGo, hr], Nat.le_trans (Nat.le_succ n) hk⟩
    · exact ⟨n, runsGo d 1 t, by simp [runsGo, h], Nat.le_refl n⟩

/-- `runsGo` produces a well-formed run list. -/
theorem goodRuns_runsGo :
    ∀ (l : List Char) (c : Char) (n : Nat), 1 ≤ n → GoodRuns (runsGo c n l) := by
  intro l
  induction l with
  | nil =>
    intro c n hn
    exact ⟨fun p hp => by simp only [runsGo, List.mem_singleton] at hp; simp [hp, hn],
      by simp [runsGo]⟩
  | cons d t ih =>
    intro c n hn
    by_cases h : d = c
    · subst h
      simpa [runsGo] using ih d (n + 1) (Nat.le_succ_of_le hn)
    · rcases ih d 1 (Nat.le_refl 1) with ⟨hcnt, hch⟩
      simp only [runsGo, if_neg h]
      constructor
      · intro p hp
        rcases List.mem_cons.mp hp with rfl | hp
        · exact hn
        · exact hcnt p hp
      · rw [List.chain'_cons']
        refine ⟨?_, hch⟩
        intro q hq
        rcases runsGo_first d t 1 with ⟨k, rest, hr, _⟩
        rw [hr] at hq
        simp only [List.head?_cons, Option.mem_def, Option.some_inj] at hq
        subst hq
        exact fun hc => h hc.symm

/-- `runs` produces a well-formed run list. -/
theorem goodRuns_runs (l : List Char) : GoodRuns (runs l) := by
  cases l with
  | nil =>
    refine ⟨fun p hp => ?_, ?_⟩
    · cases hp
    · simp [runs]
  | cons c cs => exact goodRuns_runsGo cs c 1 (Nat.le_refl 1)

/-- `unruns` distributes over append. -/
theorem unruns_append (a b : List (Char × Nat)) :
    unruns (a ++ b) = unruns a ++ unruns b := by
  simp [unruns]

/-- Rebuilding the runs of `l` prefixed with the accumulating run yields
the accumulated prefix followed by `l`. -/
theorem unruns_runsGo :
    ∀ (l : List Char) (c : Char) (n : Nat),
      unruns (runsGo c n l) = List.replicate n c ++ l := by
  intro l
  induction l with
  | nil => intro c n; simp [runsGo, unruns]
  | cons d t ih =>
    intro c n
    by_cases h : d = c
    · subst h
      rw [runsGo, if_pos rfl, ih d (n + 1), List.replicate_succ',
        List.append_assoc]
      simp
    · rw [runsGo, if_neg h]
      have : unruns ((c, n) :: runsGo d 1 t)
          = List.replicate n c ++ unruns (runsGo d 1 t) := by
        simp [unruns]
      rw [this, ih d 1]
      simp

/-- `unruns` is a left inverse of `runs`. -/
theorem unruns_runs (l : List Char) : unruns (runs l) = l := by
  cases l with
  | nil => rfl
  | cons c cs =>
    rw [runs, unruns_runsGo cs c 1]
    simp

/-- Extending the accumulating run by a block of the same character. -/
theorem runsGo_replicate_append (c : Char) :
    ∀ (j : Nat) (t : List Char) (n : Nat),
      runsGo c n (List.replicate j c ++ t) = runsGo c (n + j) t := by
  intro j
  induction j with
  | zero => intro t n; simp
  | succ j ih =>
    intro t n
    rw [List.replicate_succ, List.cons_append, runsGo, if_pos rfl, ih t (n + 1)]
    congr 1
    omega

/-- `runs` is a left inverse of `unruns` on well-formed run lists. -/
theorem runs_unruns : ∀ (rs : List (Char × Nat)), GoodRuns rs → runs (unruns rs) = rs := by
  intro rs
  induction rs with
  | nil => intro _; rfl
  | cons p rest ih =>
    intro hg
    obtain ⟨c, n⟩ := p
    obtain ⟨hcnt, hch⟩ := hg
    have hn : 1 ≤ n := hcnt (c, n) (List.mem_cons_self _ _)
    have hrest : GoodRuns rest :=
      ⟨fun q hq => hcnt q (List.mem_cons_of_mem _ hq), hch.tail⟩
    have hstep : unruns ((c, n) :: rest) = List.replicate n c ++ unruns rest := by
      simp [unruns]
    obtain ⟨n', rfl⟩ : ∃ n', n = n' + 1 := ⟨n - 1, by omega⟩
    rw [hstep, List.replicate_succ, List.cons_append, runs,
      runsGo_replicate_append c n' (unruns rest) 1]
    have h1n : 1 + n' = n' + 1 := Nat.add_comm 1 n'
    rw [h1n]
    cases rest with
    | nil => simp [unruns, runsGo]
    | cons q rest2 =>
      obtain ⟨d, nd⟩ := q
      have hnd : 1 ≤ nd :=
        hcnt (d, nd) (List.mem_cons_of_mem _ (List.mem_cons_self _ _))
      have hcd : c ≠ d := (List.chain'_cons.mp hch).1
      obtain ⟨nd', rfl⟩ : ∃ nd', nd = nd' + 1 := ⟨nd - 1, by omega⟩
      have hunr : unruns ((d, nd' + 1) :: rest2)
          = d :: (List.replicate nd' d ++ unruns rest2) := by
        simp [unruns, List.replicate_succ]
      have h2 : runs (unruns ((d, nd' + 1) :: rest2))
          = runsGo d 1 (List.replicate nd' d ++ unruns rest2) := by
        rw [hunr]; rfl
      rw [hunr, runsGo, if_neg (fun hdc => hcd hdc.symm)]
      rw [← h2, ih hrest]

/-- Shortening a run twice is the same as shortening it once. -/
theorem collapseRun_idem (m : Nat) (p : Char × Nat) :
    collapseRun m (collapseRun m p) = collapseRun m p := by
  obtain ⟨c, n⟩ := p
  by_cases h : m < n && c != '\n' <;> simp [collapseRun, h, Nat.lt_irrefl]

/-- For a positive cap, shortening runs preserves well-formedness. -/
theorem goodRuns_map_collapseRun (m : Nat) (hm : 1 ≤ m) (rs : List (Char × Nat))
    (hg : GoodRuns rs) : GoodRuns (rs.map (collapseRun m)) := by
  obtain ⟨hcnt, hch⟩ := hg
  constructor
  · intro p hp
    rcases List.mem_map.mp hp with ⟨q, hq, rfl⟩
    have := hcnt q hq
    by_cases h : m < q.2 && q.1 != '\n' <;> simp [collapseRun, h] <;> omega
  · exact (List.chain'_map _).mpr hch

/-- Every character of a rebuilt line is a run character. -/
theorem fst_mem_of_mem_unruns (rs : List (Char × Nat)) (x : Char)
    (hx : x ∈ unruns rs) : ∃ p ∈ rs, x = p.1 := by
  simp only [unruns, List.mem_flatten] at hx
  rcases hx with ⟨bl, hbl, hxbl⟩
  rcases List.mem_map.mp hbl with ⟨p, hp, rfl⟩
  exact ⟨p, hp, List.eq_of_mem_replicate hxbl⟩

/-- A run with positive count contributes its character to the rebuilt
line. -/
theorem mem_unruns_of_mem (rs : List (Char × Nat)) (p : Char × Nat)
    (hp : p ∈ rs) (hc : 1 ≤ p.2) : p.1 ∈ unruns rs := by
  simp only [unruns, List.mem_flatten]
  refine ⟨List.replicate p.2 p.1, List.mem_map_of_mem _ hp, ?_⟩
  exact List.mem_replicate.mpr ⟨by omega, rfl⟩

/-- Run characters come from the line. -/
theorem fst_mem_of_mem_runs (l : List Char) (p : Char × Nat)
    (hp : p ∈ runs l) : p.1 ∈ l := by
  have h1 := (goodRuns_runs l).1 p hp
  have h2 := mem_unruns_of_mem (runs l) p hp h1
  rwa [unruns_runs] at h2

/-- Collapsing introduces no new characters. -/
theorem mem_of_mem_collapseRuns {m : Nat} {l : List Char} {x : Char}
    (hx : x ∈ collapseRuns m l) : x ∈ l := by
  rw [collapseRuns_eq_unruns] at hx
  rcases fst_mem_of_mem_unruns _ _ hx with ⟨p, hp, rfl⟩
  rcases List.mem_map.mp hp with ⟨q, hq, rfl⟩
  exact fst_mem_of_mem_runs l q hq

/-- A run list with all-zero counts rebuilds to the empty line. -/
theorem unruns_nil_counts (rs : List (Char × Nat))
    (h : ∀ p ∈ rs, p.2 = 0) : unruns rs = [] := by
  induction rs with
  | nil => rfl
  | cons p rest ih =>
    simp only [unruns, List.map_cons, List.flatten_cons]
    rw [h p (List.mem_cons_self _ _), List.replicate_zero, List.nil_append]
    exact ih fun q hq => h q (List.mem_cons_of_mem _ hq)

/-- With cap 0, collapsing deletes every run of a newline-free line. -/
theorem collapseRuns_zero (l : List Char) (hnl : ('\n' : Char) ∉ l) :
    collapseRuns 0 l = [] := by
  rw [collapseRuns_eq_unruns]
  apply unruns_nil_counts
  intro p hp
  rcases List.mem_map.mp hp with ⟨q, hq, rfl⟩
  have h1 : 0 < q.2 := (goodRuns_runs l).1 q hq
  have h2 : q.1 ≠ '\n' := fun h => hnl (h ▸ fst_mem_of_mem_runs l q hq)
  simp [collapseRun, h1, h2]

/-- For a positive cap, collapsing is idempotent. -/
theorem collapseRuns_idem_of_pos (m : Nat) (hm : 1 ≤ m) (l : List Char) :
    collapseRuns m (collapseRuns m l) = collapseRuns m l := by
  rw [collapseRuns_eq_unruns m l, collapseRuns_eq_unruns m (unruns _),
    runs_unruns _ (goodRuns_map_collapseRun m hm _ (goodRuns_runs l)),
    List.map_map]
  exact congrArg unruns
    (List.map_congr_left fun p _ => collapseRun_idem m p)

/-- Collapsing is idempotent on newline-free lines (any cap). -/
theorem collapseRuns_idem (m : Nat) (l : List Char)
    (hnl : ('\n' : Char) ∉ l) :
    collapseRuns m (collapseRuns m l) = collapseRuns m l := by
  cases m with
  | zero => rw [collapseRuns_zero l hnl]; rfl
  | succ k => exact collapseRuns_idem_of_pos (k + 1) (Nat.succ_le_succ (Nat.zero_le k)) l

/-- The rebuilt line's length is the sum of the run counts. -/
theorem length_unruns (rs : List (Char × Nat)) :
    (unruns rs).length = (rs.map fun p => p.2).sum := by
  simp only [unruns, List.length_flatten, List.map_map]
  exact congrArg List.sum (List.map_congr_left fun p _ => by simp)

/-- Collapsing never lengthens a line. -/
theorem collapseRuns_length_le (m : Nat) (l : List Char) :
    (collapseRuns m l).length ≤ l.length := by
  rw [collapseRuns_eq_unruns]
  conv_rhs => rw [← unruns_runs l]
  rw [length_unruns, length_unruns, List.map_map]
  apply List.sum_le_sum
  intro p hp
  simp only [Function.comp_apply, collapseRun]
  by_cases h : m < p.2 && p.1 != '\n'
  · rw [if_pos h]
    simp only [Bool.and_eq_true, decide_eq_true_eq] at h
    exact Nat.le_of_lt h.1
  · rw [if_neg h]

/-! ### `stripLine` commutes with `collapseRuns` (run view) -/

/-- A satisfying block at the front is consumed whole by `dropWhile`. -/
theorem dropWhile_replicate_append (p : Char → Bool) (c : Char)
    (h : p c = true) :
    ∀ (n : Nat) (t : List Char),
      (List.replicate n c ++ t).dropWhile p = t.dropWhile p := by
  intro n
  induction n with
  | zero => intro t; rfl
  | succ n ih =>
    intro t
    rw [List.replicate_succ, List.cons_append, List.dropWhile_cons_of_pos h, ih t]

/-- `dropWhile isWs` on a rebuilt line drops exactly the leading
whitespace runs. -/
theorem dropWhile_unruns :
    ∀ (rs : List (Char × Nat)), GoodRuns rs →
      (unruns rs).dropWhile isWs = unruns (rs.dropWhile wsRun) := by
  intro rs
  induction rs with
  | nil => intro _; rfl
  | cons p rest ih =>
    intro hg
    obtain ⟨c, n⟩ := p
    have hn : 1 ≤ n := hg.1 _ (List.mem_cons_self _ _)
    have hrest : GoodRuns rest :=
      ⟨fun q hq => hg.1 q (List.mem_cons_of_mem _ hq), hg.2.tail⟩
    have hstep : unruns ((c, n) :: rest) = List.replicate n c ++ unruns rest := by
      simp [unruns]
    by_cases hws : isWs c
    · rw [hstep, dropWhile_replicate_append isWs c hws, ih hrest,
        List.dropWhile_cons_of_pos (p := wsRun) (by simpa [wsRun] using hws)]
    · obtain ⟨n', rfl⟩ : ∃ n', n = n' + 1 := ⟨n - 1, by omega⟩
      rw [List.dropWhile_cons_of_neg (p := wsRun) (by simpa [wsRun] using hws)]
      rw [hstep, List.replicate_succ, List.cons_append,
        List.dropWhile_cons_of_neg (by simpa using hws)]

/-- Rebuilding commutes with reversal (runs are palindromic blocks). -/
theorem unruns_reverse : ∀ (rs : List (Char × Nat)),
    (unruns rs).reverse = unruns rs.reverse := by
  intro rs
  induction rs with
  | nil => rfl
  | cons p rest ih =>
    have hstep : unruns (p :: rest) = List.replicate p.2 p.1 ++ unruns rest := by
      simp [unruns]
    rw [hstep, List.reverse_append, ih, List.reverse_replicate,
      List.reverse_cons, unruns_append]
    simp [unruns]

/-- `dropWhile` preserves chains. -/
theorem chain'_dropWhile {α : Type} {R : α → α → Prop} (p : α → Bool) :
    ∀ (l : List α), List.Chain' R l → List.Chain' R (l.dropWhile p) := by
  intro l
  induction l with
  | nil => intro h; exact h
  | cons a t ih =>
    intro h
    by_cases hp : p a
    · rw [List.dropWhile_cons_of_pos hp]
      exact ih h.tail
    · rw [List.dropWhile_cons_of_neg hp]
      exact h

/-- `dropWhile` only removes elements. -/
theorem mem_of_dropWhile_mem {α : Type} (p : α → Bool) :
    ∀ (l : List α) (a : α), a ∈ l.dropWhile p → a ∈ l := by
  intro l
  induction l with
  | nil => intro a h; exact h
  | cons b t ih =>
    intro a h
    by_cases hp : p b
    · rw [List.dropWhile_cons_of_pos hp] at h
      exact List.mem_cons_of_mem _ (ih a h)
    · rwa [List.dropWhile_cons_of_neg hp] at h

/-- `dropWhile` preserves well-formedness of run lists. -/
theorem goodRuns_dropWhile (p : Char × Nat → Bool) (rs : List (Char × Nat))
    (hg : GoodRuns rs) : GoodRuns (rs.dropWhile p) :=
  ⟨fun q hq => hg.1 q (mem_of_dropWhile_mem p rs q hq), chain'_dropWhile p rs hg.2⟩

/-- Reversal preserves well-formedness of run lists. -/
theorem goodRuns_reverse (rs : List (Char × Nat)) (hg : GoodRuns rs) :
    GoodRuns rs.reverse := by
  refine ⟨fun q hq => hg.1 q (List.mem_reverse.mp hq), ?_⟩
  exact List.chain'_reverse.mpr (hg.2.imp fun _ _ h => h.symm)

/-- `stripLine` on a rebuilt line strips exactly the boundary whitespace
runs. -/
theorem stripLine_unruns (rs : List (Char × Nat)) (hg : GoodRuns rs) :
    stripLine (unruns rs) = unruns (stripRuns rs) := by
  unfold stripLine stripRuns
  rw [dropWhile_unruns rs hg, unruns_reverse (rs.dropWhile wsRun),
    dropWhile_unruns _ (goodRuns_reverse _ (goodRuns_dropWhile _ _ hg)),
    unruns_reverse]

/-- `dropWhile` commutes with `map`. -/
theorem dropWhile_map {α β : Type} (f : α → β) (p : β → Bool) :
    ∀ (l : List α), (l.map f).dropWhile p = (l.dropWhile fun a => p (f a)).map f := by
  intro l
  induction l with
  | nil => rfl
  | cons a t ih =>
    by_cases hp : p (f a)
    · rw [List.map_cons, List.dropWhile_cons_of_pos hp,
        List.dropWhile_cons_of_pos (p := fun x => p (f x)) hp, ih]
    · rw [List.map_cons, List.dropWhile_cons_of_neg hp,
        List.dropWhile_cons_of_neg (p := fun x => p (f x)) hp, List.map_cons]

/-- Stripping boundary whitespace runs commutes with per-run
shortening (shortening never changes a run's character). -/
theorem stripRuns_map_collapseRun (m : Nat) (rs : List (Char × Nat)) :
    stripRuns (rs.map (collapseRun m)) = (stripRuns rs).map (collapseRun m) := by
  unfold stripRuns
  rw [dropWhile_map, ← List.map_reverse, dropWhile_map, ← List.map_reverse]
  rfl

/-- For a positive cap, `stripLine` commutes with `collapseRuns`. -/
theorem stripLine_collapseRuns (m : Nat) (hm : 1 ≤ m) (l : List Char) :
    stripLine (collapseRuns m l) = collapseRuns m (stripLine l) := by
  have hgood : GoodRuns (stripRuns (runs l)) :=
    goodRuns_reverse _ (goodRuns_dropWhile _ _
      (goodRuns_reverse _ (goodRuns_dropWhile _ _ (goodRuns_runs l))))
  rw [collapseRuns_eq_unruns m l,
    stripLine_unruns _ (goodRuns_map_collapseRun m hm _ (goodRuns_runs l)),
    stripRuns_map_collapseRun]
  conv_rhs => rw [← unruns_runs l, stripLine_unruns _ (goodRuns_runs l),
    collapseRuns_eq_unruns, runs_unruns _ hgood]

/-- If collapsing (positive cap) yields a nonempty pure run of `c`, the
original line was a pure run of `c` at least as long. -/
theorem eq_replicate_of_collapse_eq_replicate (m : Nat) (hm : 1 ≤ m)
    (s : List Char) (c : Char) (k : Nat) (hk : 1 ≤ k)
    (h : collapseRuns m s = List.replicate k c) :
    ∃ j, k ≤ j ∧ s = List.replicate j c := by
  cases s with
  | nil =>
    rw [collapseRuns] at h
    have hlen := congrArg List.length h
    simp only [List.length_nil, List.length_replicate] at hlen
    omega
  | cons d cs =>
    rcases runsGo_first d cs 1 with ⟨n, rest, hr, hn1⟩
    have hruns : runs (d :: cs) = (d, n) :: rest := hr
    have hgood : GoodRuns ((d, n) :: rest) := hruns ▸ goodRuns_runs (d :: cs)
    have hc : collapseRuns m (d :: cs)
        = List.replicate (collapseRun m (d, n)).2 d ++ unruns (rest.map (collapseRun m)) := by
      rw [collapseRuns_eq_unruns, hruns]
      simp [unruns, collapseRun]
    have hpos : 1 ≤ (collapseRun m (d, n)).2 := by
      simp only [collapseRun]
      by_cases hb : m < n && d != '\n'
      · rw [if_pos hb]; exact hm
      · rw [if_neg hb]; exact hn1
    rw [hc] at h
    have hdc : d = c := by
      have h2 := h
      obtain ⟨t, ht⟩ : ∃ t, (collapseRun m (d, n)).2 = t + 1 :=
        ⟨(collapseRun m (d, n)).2 - 1, by omega⟩
      obtain ⟨k', hk'⟩ : ∃ k', k = k' + 1 := ⟨k - 1, by omega⟩
      rw [ht, hk', List.replicate_succ, List.replicate_succ, List.cons_append] at h2
      exact (List.cons_eq_cons.mp h2).1
    subst hdc
    have hrest : rest = [] := by
      cases hrr : rest with
      | nil => rfl
      | cons q rest2 =>
        obtain ⟨d2, n2⟩ := q
        have hn2 : 1 ≤ n2 := by
          refine hgood.1 (d2, n2) ?_
          rw [hrr]
          exact List.mem_cons_of_mem _ (List.mem_cons_self _ _)
        have hd2mem : d2 ∈ unruns (rest.map (collapseRun m)) := by
          have hcm : (collapseRun m (d2, n2)) ∈ rest.map (collapseRun m) := by
            rw [hrr]
            exact List.mem_map_of_mem _ (List.mem_cons_self _ _)
          have hcmpos : 1 ≤ (collapseRun m (d2, n2)).2 := by
            simp only [collapseRun]
            by_cases hb : m < n2 && d2 != '\n'
            · rw [if_pos hb]; exact hm
            · rw [if_neg hb]; exact hn2
          exact mem_unruns_of_mem _ _ hcm hcmpos
        have hd2c : d2 = d := by
          have : d2 ∈ List.replicate k d := by
            rw [← h]
            exact List.mem_append_right _ hd2mem
          exact List.eq_of_mem_replicate this
        have hne : d ≠ d2 := by
          have := List.chain'_cons'.mp hgood.2
          refine this.1 (d2, n2) ?_
          rw [hrr]
          simp
        exact absurd hd2c.symm hne
    subst hrest
    have hs : d :: cs = List.replicate n d := by
      have := unruns_runs (d :: cs)
      rw [hruns] at this
      rw [← this]
      simp [unruns]
    refine ⟨n, ?_, hs⟩
    have hx : unruns (([] : List (Char × Nat)).map (collapseRun m)) = [] := rfl
    rw [hx, List.append_nil] at h
    have hlen := congrArg List.length h
    simp only [List.length_replicate] at hlen
    have : (collapseRun m (d, n)).2 ≤ n := by
      simp only [collapseRun]
      by_cases hb : m < n && d != '\n'
      · rw [if_pos hb]
        simp only [Bool.and_eq_true, decide_eq_true_eq] at hb
        exact Nat.le_of_lt hb.1
      · rw [if_neg hb]
    omega

/-- If the collapsed line is a separator line, so was the original
(positive cap). -/
theorem isSep_true_of_collapse (m : Nat) (hm : 1 ≤ m) (l : List Char)
    (h : isSep (collapseRuns m l) = true) : isSep l = true := by
  unfold isSep at h ⊢
  rw [stripLine_collapseRuns m hm l] at h
  cases hs : collapseRuns m (stripLine l) with
  | nil => rw [hs] at h; cases h
  | cons c rest =>
    rw [hs] at h
    simp only [Bool.and_eq_true, decide_eq_true_eq, List.all_eq_true, beq_iff_eq,
      bne_iff_ne, ne_eq] at h
    obtain ⟨⟨hlen4, hall⟩, hcnl⟩ := h
    have hrep : collapseRuns m (stripLine l) = List.replicate (rest.length + 1) c := by
      rw [hs, List.replicate_succ]
      congr 1
      exact List.eq_replicate_length.mpr hall
    rcases eq_replicate_of_collapse_eq_replicate m hm (stripLine l) c
      (rest.length + 1) (by omega) hrep with ⟨j, hj, hstrip⟩
    obtain ⟨j', rfl⟩ : ∃ j', j = j' + 1 := ⟨j - 1, by omega⟩
    rw [hstrip, List.replicate_succ]
    simp only [Bool.and_eq_true, decide_eq_true_eq, List.all_eq_true, beq_iff_eq,
      bne_iff_ne, ne_eq]
    refine ⟨⟨by simp; omega, fun x hx => List.eq_of_mem_replicate hx⟩, hcnl⟩

/-- A newline-free non-separator line stays non-separator after
collapsing (any cap). -/
theorem isSep_collapse_false (m : Nat) (l : List Char)
    (hnl : ('\n' : Char) ∉ l) (h : isSep l = false) :
    isSep (collapseRuns m l) = false := by
  cases m with
  | zero =>
    rw [collapseRuns_zero l hnl]
    rfl
  | succ k =>
    cases hb : isSep (collapseRuns (k + 1) l) with
    | false => rfl
    | true =>
      have := isSep_true_of_collapse (k + 1) (Nat.succ_le_succ (Nat.zero_le k)) l hb
      rw [this] at h
      cases h

/-! ### Structure of the cleaning loop's output -/

/-- The loop output is a selection of kept input lines, each collapsed:
nothing is ever added, reordered, or rewritten beyond run collapsing. -/
theorem cleanLoop_eq_map_sublist (m : Nat) :
    ∀ (ls : List (List Char)) (prev : Option (List Char)) (cnt : Nat),
      ∃ kept : List (List Char), kept.Sublist ls ∧
        cleanLoop m ls prev cnt = kept.map (collapseRuns m) := by
  intro ls
  induction ls with
  | nil => intro prev cnt; exact ⟨[], List.nil_sublist _, rfl⟩
  | cons l t ih =>
    intro prev cnt
    by_cases hsep : isSep l
    · rcases ih prev cnt with ⟨kept, hsub, heq⟩
      exact ⟨kept, hsub.cons l, by rw [cleanLoop, if_pos hsep, heq]⟩
    · by_cases hprev : some (collapseRuns m l) = prev
      · by_cases hcnt : m < cnt + 1
        · rcases ih prev (cnt + 1) with ⟨kept, hsub, heq⟩
          refine ⟨kept, hsub.cons l, ?_⟩
          rw [cleanLoop, if_neg hsep, if_pos hprev, if_pos hcnt, heq]
        · rcases ih prev (cnt + 1) with ⟨kept, hsub, heq⟩
          refine ⟨l :: kept, hsub.cons₂ l, ?_⟩
          rw [cleanLoop, if_neg hsep, if_pos hprev, if_neg hcnt, heq, List.map_cons]
      · rcases ih (some (collapseRuns m l)) 1 with ⟨kept, hsub, heq⟩
        refine ⟨l :: kept, hsub.cons₂ l, ?_⟩
        rw [cleanLoop, if_neg hsep, if_neg hprev, heq, List.map_cons]

/-- Newline-free input lines give newline-free output lines. -/
theorem cleanLoop_no_newline (m : Nat) (ls : List (List Char))
    (prev : Option (List Char)) (cnt : Nat)
    (hnl : ∀ l ∈ ls, ('\n' : Char) ∉ l) :
    ∀ l' ∈ cleanLoop m ls prev cnt, ('\n' : Char) ∉ l' := by
  rcases cleanLoop_eq_map_sublist m ls prev cnt with ⟨kept, hsub, heq⟩
  rw [heq]
  intro l' hl'
  rcases List.mem_map.mp hl' with ⟨l, hl, rfl⟩
  intro hmem
  exact hnl l (hsub.subset hl) (mem_of_mem_collapseRuns hmem)

/-! ### Splitting and joining lines -/

/-- `text.split('\n')` always yields at least one piece. -/
theorem splitLines_ne_nil : ∀ (cs : List Char), splitLines cs ≠ [] := by
  intro cs
  induction cs with
  | nil => simp [splitLines]
  | cons c cs ih =>
    by_cases h : c = '\n'
    · simp [splitLines, h]
    · simp only [splitLines, if_neg h]
      cases hs : splitLines cs with
      | nil => simp
      | cons l ls => simp

/-- Pieces of `text.split('\n')` contain no newline. -/
theorem no_newline_splitLines :
    ∀ (cs l : List Char), l ∈ splitLines cs → ('\n' : Char) ∉ l := by
  intro cs
  induction cs with
  | nil =>
    intro l hl
    simp only [splitLines, List.mem_singleton] at hl
    subst hl
    simp
  | cons c cs ih =>
    intro l hl
    by_cases h : c = '\n'
    · rw [splitLines, if_pos h] at hl
      rcases List.mem_cons.mp hl with rfl | hl
      · simp
      · exact ih l hl
    · cases hs : splitLines cs with
      | nil => exact absurd hs (splitLines_ne_nil cs)
      | cons l0 ls =>
        rw [splitLines, if_neg h, hs] at hl
        rcases List.mem_cons.mp hl with rfl | hl
        · intro hmem
          rcases List.mem_cons.mp hmem with heq | hmem
          · exact h heq.symm
          · exact ih l0 (hs ▸ List.mem_cons_self _ _) hmem
        · exact ih l (hs ▸ List.mem_cons_of_mem _ hl)

/-- `'\n'.join` is a left inverse of `split('\n')`. -/
theorem joinLines_splitLines : ∀ (cs : List Char), joinLines (splitLines cs) = cs := by
  intro cs
  induction cs with
  | nil => rfl
  | cons c cs ih =>
    by_cases h : c = '\n'
    · subst h
      rw [splitLines, if_pos rfl]
      cases hs : splitLines cs with
      | nil => exact absurd hs (splitLines_ne_nil cs)
      | cons l0 ls =>
        rw [hs] at ih
        rw [joinLines, ← ih]
        simp
    · cases hs : splitLines cs with
      | nil => exact absurd hs (splitLines_ne_nil cs)
      | cons l0 ls =>
        rw [splitLines, if_neg h, hs]
        rw [hs] at ih
        cases ls with
        | nil =>
          have h0 : joinLines [l0] = l0 := rfl
          rw [h0] at ih
          rw [joinLines, ih]
        | cons l1 ls' =>
          rw [joinLines] at ih
          rw [joinLines, List.cons_append, ih]

/-- A newline-free text is a single piece. -/
theorem splitLines_no_newline :
    ∀ (l : List Char), ('\n' : Char) ∉ l → splitLines l = [l] := by
  intro l
  induction l with
  | nil => intro _; rfl
  | cons c cs ih =>
    intro h
    have hc : c ≠ '\n' := fun he => h (he ▸ List.mem_cons_self _ _)
    rw [splitLines, if_neg hc, ih fun hm => h (List.mem_cons_of_mem _ hm)]

/-- Splitting after a newline-free first line. -/
theorem splitLines_append_newline :
    ∀ (l t : List Char), ('\n' : Char) ∉ l →
      splitLines (l ++ '\n' :: t) = l :: splitLines t := by
  intro l
  induction l with
  | nil =>
    intro t _
    rw [List.nil_append, splitLines, if_pos rfl]
  | cons c l' ih =>
    intro t h
    have hc : c ≠ '\n' := fun he => h (he ▸ List.mem_cons_self _ _)
    rw [List.cons_append, splitLines, if_neg hc,
      ih t fun hm => h (List.mem_cons_of_mem _ hm)]

/-- `split('\n')` is a left inverse of `'\n'.join` on nonempty lists of
newline-free lines. -/
theorem splitLines_joinLines :
    ∀ (ls : List (List Char)), ls ≠ [] → (∀ l ∈ ls, ('\n' : Char) ∉ l) →
      splitLines (joinLines ls) = ls := by
  intro ls
  induction ls with
  | nil => intro h _; exact absurd rfl h
  | cons l ls ih =>
    intro _ hnl
    cases ls with
    | nil => exact splitLines_no_newline l (hnl l (List.mem_cons_self _ _))
    | cons l1 ls' =>
      rw [joinLines, splitLines_append_newline l _ (hnl l (List.mem_cons_self _ _)),
        ih (by simp) fun q hq => hnl q (List.mem_cons_of_mem _ hq)]

/-! ### Idempotence of the cleaning loop

Running the loop again over its own output reproduces it.  The invariant
relating the two passes: when the first pass is in state
`(prev = some p, line_count = c)`, the second pass (replaying the output
produced so far) is in state `(some p, min c (max 1 m))` — the output
holds `min c (max 1 m)` trailing copies of `p` because the first pass
appended copies only while its count was at most `m` (and always appends
the first copy). -/

/-- Second-pass simulation: replaying the loop's output from the matching
state reproduces the output. -/
theorem cleanLoop_second_pass (m : Nat) :
    ∀ (ls : List (List Char)), (∀ l ∈ ls, ('\n' : Char) ∉ l) →
      ∀ (p : List Char) (c : Nat), 1 ≤ c →
        cleanLoop m (cleanLoop m ls (some p) c) (some p) (min c (max 1 m))
          = cleanLoop m ls (some p) c := by
  intro ls
  induction ls with
  | nil => intro _ p c _; rfl
  | cons l t ih =>
    intro hnl p c hc
    have hnll : ('\n' : Char) ∉ l := hnl l (List.mem_cons_self _ _)
    have hnlt : ∀ q ∈ t, ('\n' : Char) ∉ q :=
      fun q hq => hnl q (List.mem_cons_of_mem _ hq)
    by_cases hsep : isSep l
    · rw [cleanLoop, if_pos hsep]
      exact ih hnlt p c hc
    · have hsepf : isSep l = false := by
        cases hb : isSep l
        · rfl
        · exact absurd hb hsep
      have hsep2 : isSep (collapseRuns m l) = false :=
        isSep_collapse_false m l hnll hsepf
      have hidem : collapseRuns m (collapseRuns m l) = collapseRuns m l :=
        collapseRuns_idem m l hnll
      by_cases hprev : some (collapseRuns m l) = some p
      · by_cases hcnt : m < c + 1
        · -- equal to prev, over the cap: first pass skips the line
          rw [cleanLoop, if_neg hsep, if_pos hprev, if_pos hcnt]
          have hmin : min c (max 1 m) = min (c + 1) (max 1 m) := by omega
          rw [hmin]
          exact ih hnlt p (c + 1) (by omega)
        · -- equal to prev, within the cap: first pass appends the line
          rw [cleanLoop, if_neg hsep, if_pos hprev, if_neg hcnt]
          have hcle : c + 1 ≤ m := by omega
          have hminc : min c (max 1 m) = c := by omega
          have e1 : cleanLoop m
              (collapseRuns m l :: cleanLoop m t (some p) (c + 1))
              (some p) (min c (max 1 m))
              = collapseRuns m l ::
                cleanLoop m (cleanLoop m t (some p) (c + 1)) (some p) (c + 1) := by
            rw [cleanLoop, if_neg (by simp [hsep2]), hidem, if_pos hprev, hminc,
              if_neg hcnt]
          rw [e1]
          congr 1
          have := ih hnlt p (c + 1) (by omega)
          have hmin1 : min (c + 1) (max 1 m) = c + 1 := by omega
          rwa [hmin1] at this
      · -- different from prev: first pass appends and resets the state
        rw [cleanLoop, if_neg hsep, if_neg hprev]
        have e1 : cleanLoop m
            (collapseRuns m l :: cleanLoop m t (some (collapseRuns m l)) 1)
            (some p) (min c (max 1 m))
            = collapseRuns m l ::
              cleanLoop m (cleanLoop m t (some (collapseRuns m l)) 1)
                (some (collapseRuns m l)) 1 := by
          rw [cleanLoop, if_neg (by simp [hsep2]), hidem, if_neg hprev]
        rw [e1]
        congr 1
        have := ih hnlt (collapseRuns m l) 1 (Nat.le_refl 1)
        have hmin1 : min 1 (max 1 m) = 1 := by omega
        rwa [hmin1] at this

/-- The cleaning loop is idempotent on newline-free lines. -/
theorem cleanLoop_idem (m : Nat) :
    ∀ (ls : List (List Char)), (∀ l ∈ ls, ('\n' : Char) ∉ l) →
      cleanLoop m (cleanLoop m ls none 0) none 0 = cleanLoop m ls none 0 := by
  intro ls
  induction ls with
  | nil => intro _; rfl
  | cons l t ih =>
    intro hnl
    have hnll : ('\n' : Char) ∉ l := hnl l (List.mem_cons_self _ _)
    have hnlt : ∀ q ∈ t, ('\n' : Char) ∉ q :=
      fun q hq => hnl q (List.mem_cons_of_mem _ hq)
    by_cases hsep : isSep l
    · rw [cleanLoop, if_pos hsep]
      exact ih hnlt
    · have hsepf : isSep l = false := by
        cases hb : isSep l
        · rfl
        · exact absurd hb hsep
      have hsep2 : isSep (collapseRuns m l) = false :=
        isSep_collapse_false m l hnll hsepf
      have hidem : collapseRuns m (collapseRuns m l) = collapseRuns m l :=
        collapseRuns_idem m l hnll
      rw [cleanLoop, if_neg hsep, if_neg (by simp)]
      have e1 : cleanLoop m
          (collapseRuns m l :: cleanLoop m t (some (collapseRuns m l)) 1) none 0
          = collapseRuns m l ::
            cleanLoop m (cleanLoop m t (some (collapseRuns m l)) 1)
              (some (collapseRuns m l)) 1 := by
        rw [cleanLoop, if_neg (by simp [hsep2]), hidem, if_neg (by simp)]
      rw [e1]
      congr 1
      have := cleanLoop_second_pass m t hnlt (collapseRuns m l) 1 (Nat.le_refl 1)
      have hmin1 : min 1 (max 1 m) = 1 := by omega
      rwa [hmin1] at this

/-- The loop leaves alone input with no separator lines, no over-cap
runs, and no consecutive duplicate lines. -/
theorem cleanLoop_id (m : Nat) :
    ∀ (ls : List (List Char)),
      (∀ l ∈ ls, isSep l = false ∧ collapseRuns m l = l) →
      List.Chain' (· ≠ ·) ls →
      ∀ (prev : Option (List Char)) (cnt : Nat),
        (∀ h, ls.head? = some h → some h ≠ prev) →
        cleanLoop m ls prev cnt = ls := by
  intro ls
  induction ls with
  | nil => intro _ _ prev cnt _; rfl
  | cons l t ih =>
    intro hprop hch prev cnt hhd
    obtain ⟨hsep, hcol⟩ := hprop l (List.mem_cons_self _ _)
    have hne : ¬ some (collapseRuns m l) = prev := by
      rw [hcol]
      exact hhd l rfl
    rw [cleanLoop, if_neg (by simp [hsep]), if_neg hne, hcol]
    congr 1
    rcases List.chain'_cons'.mp hch with ⟨hhead, hcht⟩
    refine ih (fun q hq => hprop q (List.mem_cons_of_mem _ hq)) hcht (some l) 1 ?_
    intro h hh
    have : l ≠ h := hhead h (by rw [hh]; rfl)
    simpa using fun he => this he.symm

/-- `dropWhile` keeps a block whose character fails the predicate. -/
theorem dropWhile_replicate_of_neg (p : Char → Bool) (c : Char)
    (h : ¬ p c = true) (k : Nat) :
    (List.replicate k c).dropWhile p = List.replicate k c := by
  cases k with
  | zero => rfl
  | succ k => rw [List.replicate_succ, List.dropWhile_cons_of_neg h]

/-- A line that is one non-whitespace character repeated at least 5 times
matches the separator regex. -/
theorem isSep_replicate (c : Char) (k : Nat) (hws : isWs c = false)
    (hk : 5 ≤ k) : isSep (List.replicate k c) = true := by
  have hnot : ¬ isWs c = true := by simp [hws]
  have hstrip : stripLine (List.replicate k c) = List.replicate k c := by
    unfold stripLine
    rw [dropWhile_replicate_of_neg isWs c hnot, List.reverse_replicate,
      dropWhile_replicate_of_neg isWs c hnot, List.reverse_replicate]
  obtain ⟨k', rfl⟩ : ∃ k', k = k' + 1 := ⟨k - 1, by omega⟩
  unfold isSep
  rw [hstrip, List.replicate_succ]
  have hcnl : c ≠ '\n' := by
    intro hcc
    rw [hcc] at hws
    have hnw : isWs '\n' = true := by decide
    rw [hnw] at hws
    cases hws
  simp only [Bool.and_eq_true, decide_eq_true_eq, List.all_eq_true, beq_iff_eq,
    bne_iff_ne, ne_eq]
  refine ⟨⟨by simp; omega, fun x hx => List.eq_of_mem_replicate hx⟩, hcnl⟩

/-! ### Theorems: text cleaner idempotence and invariants (C6, C9, C10) -/

/-- Claim C6: the text cleaner is a pure function of its input and is
idempotent — for every input string and every `maxConsecutive` cap,
cleaning a second time changes nothing. -/
theorem c6_clean_idempotent (x : String) (m : Nat) :
    remove_repetition (remove_repetition x m) m = remove_repetition x m := by
  unfold remove_repetition
  show String.mk (joinLines (cleanLoop m
      (splitLines (joinLines (cleanLoop m (splitLines x.data) none 0))) none 0)) = _
  cases hempty : cleanLoop m (splitLines x.data) none 0 with
  | nil => rfl
  | cons o os =>
    have hnlout : ∀ l ∈ o :: os, ('\n' : Char) ∉ l := by
      rw [← hempty]
      exact cleanLoop_no_newline m _ none 0
        fun l hl => no_newline_splitLines x.data l hl
    rw [splitLines_joinLines (o :: os) (by simp) hnlout, ← hempty,
      cleanLoop_idem m _ fun l hl => no_newline_splitLines x.data l hl]

/-- Claim C9 is false on the code as stated: a line of one *whitespace*
character repeated 5 times (five spaces) is a "line consisting of one
character repeated 5 or more times with no other content", yet it is not
removed — the separator regex is matched against `line.strip()`, which
turns a whitespace-only line into `""`.  The five-space input passes
through unchanged and is not the empty string. -/
theorem c9_counterexample :
    remove_repetition ⟨List.replicate 5 ' '⟩ 20 = ⟨List.replicate 5 ' '⟩ ∧
    (⟨List.replicate 5 ' '⟩ : String) ≠ "" := by
  constructor <;> decide

/-- Claim C9 amended (`maxConsecutive = 20`): (a) a line consisting of one
*non-whitespace* character repeated ≥ 5 times with no other content is
removed entirely wherever it occurs; (b) the line `"Patient"` repeated 50
times in a row is collapsed to at most 20 occurrences; (c) input with no
separator lines, no character runs over the cap, and no consecutive
duplicate lines passes through unchanged. -/
theorem c9_amended_cleaner_properties
    (c : Char) (k : Nat) (ls : List (List Char)) (prev : Option (List Char))
    (cnt : Nat) (text : String) :
    (isWs c = false → 5 ≤ k →
      cleanLoop 20 (List.replicate k c :: ls) prev cnt = cleanLoop 20 ls prev cnt) ∧
    (∃ n, n ≤ 20 ∧
      remove_repetition ⟨joinLines (List.replicate 50 "Patient".data)⟩ 20
        = ⟨joinLines (List.replicate n "Patient".data)⟩) ∧
    ((∀ l ∈ splitLines text.data, isSep l = false ∧ collapseRuns 20 l = l) →
      List.Chain' (· ≠ ·) (splitLines text.data) →
      remove_repetition text 20 = text) := by
  refine ⟨?_, ⟨20, Nat.le_refl 20, ?_⟩, ?_⟩
  · intro hws hk
    rw [cleanLoop, if_pos (isSep_replicate c k hws hk)]
  · set_option maxRecDepth 10000 in decide
  · intro hprop hch
    unfold remove_repetition
    rw [cleanLoop_id 20 _ hprop hch none 0 (by simp), joinLines_splitLines]

/-- Witness for C9 at concrete inputs: a `"-----"` separator line inside
a batch of lines is removed, and a two-line non-repeating text passes
through unchanged. -/
theorem c9_witness :
    cleanLoop 20 [List.replicate 5 '-'] none 0 = cleanLoop 20 [] none 0 ∧
    remove_repetition "ab\ncd" 20 = "ab\ncd" :=
  ⟨(c9_amended_cleaner_properties '-' 5 [] none 0 "ab\ncd").1 (by decide) (by omega),
   (c9_amended_cleaner_properties '-' 5 [] none 0 "ab\ncd").2.2
     (by decide)
     (by
       have hsplit : splitLines "ab\ncd".data = [['a', 'b'], ['c', 'd']] := by decide
       rw [hsplit]
       exact List.chain'_cons.mpr ⟨by decide, List.chain'_singleton _⟩)⟩

/-- Claim C10: for any cap `maxConsecutive ≥ 1` the cleaner never adds
content — its output lines are a subsequence of the input lines with runs
collapsed, collapsing never lengthens a line, and the output has at most
as many lines as the input. -/
theorem c10_cleaner_never_adds (text : String) (m : Nat) (hm : 1 ≤ m) :
    ∃ kept : List (List Char), kept.Sublist (splitLines text.data) ∧
      cleanLoop m (splitLines text.data) none 0 = kept.map (collapseRuns m) ∧
      (∀ l, (collapseRuns m l).length ≤ l.length) ∧
      (splitLines (remove_repetition text m).data).length
        ≤ (splitLines text.data).length := by
  rcases cleanLoop_eq_map_sublist m (splitLines text.data) none 0 with
    ⟨kept, hsub, heq⟩
  refine ⟨kept, hsub, heq, fun l => collapseRuns_length_le m l, ?_⟩
  unfold remove_repetition
  cases hempty : cleanLoop m (splitLines text.data) none 0 with
  | nil =>
    have hlen : 1 ≤ (splitLines text.data).length := by
      cases hsp : splitLines text.data with
      | nil => exact absurd hsp (splitLines_ne_nil _)
      | cons a b => simp
    simpa using hlen
  | cons o os =>
    have hnlout : ∀ l ∈ o :: os, ('\n' : Char) ∉ l := by
      rw [← hempty]
      exact cleanLoop_no_newline m _ none 0
        fun l hl => no_newline_splitLines text.data l hl
    show (splitLines (joinLines (o :: os))).length ≤ _
    rw [splitLines_joinLines (o :: os) (by simp) hnlout]
    have h1 : (o :: os).length = kept.length := by
      rw [← hempty, heq, List.length_map]
    rw [h1]
    exact hsub.length_le

/-- Witness for C10 at the empty text with cap 1. -/
theorem c10_witness :
    ∃ kept : List (List Char), kept.Sublist (splitLines ("" : String).data) ∧
      cleanLoop 1 (splitLines ("" : String).data) none 0 = kept.map (collapseRuns 1) ∧
      (∀ l, (collapseRuns 1 l).length ≤ l.length) ∧
      (splitLines (remove_repetition "" 1).data).length
        ≤ (splitLines ("" : String).data).length :=
  c10_cleaner_never_adds "" 1 (Nat.le_refl 1)

end OcrPipe
